import Mathlib

/-!
Verification of the segmentation-and-sampling engine of the direct-mail
campaign tool (`scripts/stratified_sampling.py` and
`scripts/data_processing.py`), shallowly embedded in Lean.

Modelling conventions:
* a pandas DataFrame is a list of rows (structures);
* Python float arithmetic is modelled exactly over `ℚ`; Python's built-in
  `round` (round-half-to-even) is `roundHalfEven`;
* `np.inf` bin edges live in `WithTop ℚ`;
* `pd.cut(..., right=False)` boundary semantics and its `ValueError`s
  (non-monotonic breaks, duplicate breaks) are modelled by `findBucket`
  and `cutValidate`; a raised exception is an `Except.error`;
* the deterministic shuffle `DataFrame.sample(frac=1, random_state=seed)`
  permutes row positions as a function of the seed and the row count only,
  so it is modelled by a parameter `sh : ℕ → (n : ℕ) → Equiv.Perm (Fin n)`;
  every theorem below holds for every such permutation family;
* `DataFrame.iloc[a:b]` slicing (with Python clamping and negative-index
  semantics) is `ilocSlice`;
* the process-wide numpy generator state mutated by `np.random.seed` is
  the `World` state threaded through `stratified_sample_run`.
-/

-- Core `Rat` arithmetic is marked irreducible upstream, which blocks
-- elaborator-side evaluation of concrete rational computations (the kernel
-- itself is unaffected).  Re-allow unfolding so `decide` can evaluate the
-- embedded pipeline on concrete inputs.
set_option allowUnsafeReducibility true
attribute [local semireducible] Rat.add Rat.sub Rat.mul Rat.div Rat.inv

namespace DirectMail

/-- A customer-summary row as consumed by `bin_customers`: the fields the
segmentation engine reads (`recency`, `frequency`), plus an identifier
standing for all the carried-along columns. -/
structure Customer where
  id : ℕ
  recency : ℚ
  frequency : ℚ
deriving DecidableEq, Repr

/-- Module default `DEFAULT_RECENCY_BINS = [0,1,2,3,4,5,6,7,13,25,37]`. -/
def DEFAULT_RECENCY_BINS : List (WithTop ℚ) :=
  [0, 1, 2, 3, 4, 5, 6, 7, 13, 25, 37]

/-- Module default `DEFAULT_FREQUENCY_BINS = [1,2,3,4,5,np.inf]`. -/
def DEFAULT_FREQUENCY_BINS : List (WithTop ℚ) :=
  [1, 2, 3, 4, 5, ⊤]

/-- Module default `RANDOM_SEED = 42`. -/
def RANDOM_SEED : ℕ := 42

/-- `recency_bins or DEFAULT_RECENCY_BINS`: Python `or` falls through to the
default when the argument is falsy, i.e. `None` or the empty list. -/
def resolveBins (bins : Option (List (WithTop ℚ))) (dflt : List (WithTop ℚ)) :
    List (WithTop ℚ) :=
  match bins with
  | none => dflt
  | some [] => dflt
  | some bs => bs

/-- Does `np.diff(bins) < 0` hold anywhere?  `pd.cut` raises
"bins must increase monotonically" when some adjacent step decreases. -/
def hasDecreasingStep : List (WithTop ℚ) → Bool
  | e1 :: e2 :: rest => (if e2 < e1 then true else hasDecreasingStep (e2 :: rest))
  | _ => false

/-- Does the break list contain a repeated edge (`len(unique_bins) <
len(bins)`)? -/
def hasDuplicate : List (WithTop ℚ) → Bool
  | [] => false
  | x :: xs => (if x ∈ xs then true else hasDuplicate xs)

/-- The two `ValueError`s `pd.cut` can raise for a bad break list. -/
inductive CutError where
  | nonMonotonic
  | duplicateEdges
deriving DecidableEq, Repr

/-- The validation `pd.cut` performs on its break list, in source order: the
(non-strict) monotonicity check in `cut` precedes the uniqueness check in
`_bins_to_cuts`, and the latter is guarded by `len(bins) != 2` — with the
default `duplicates="raise"`, `pd.cut` raises "Bin edges must be unique"
only for a duplicated break list of length other than 2, so a duplicate
pair like `[1, 1]` is accepted (and bins every value to NaN). -/
def cutValidate (edges : List (WithTop ℚ)) : Option CutError :=
  if hasDecreasingStep edges then some CutError.nonMonotonic
  else if hasDuplicate edges ∧ edges.length ≠ 2 then some CutError.duplicateEdges
  else none

/-- Search for the bucket of value `v` under `pd.cut(..., right=False)`
semantics: 1-based bucket `i` matches when `edges[i-1] ≤ v < edges[i]`.
`i0` is the index of the first bucket of the remaining break list. -/
def findBucketAux (v : ℚ) : List (WithTop ℚ) → ℕ → Option ℕ
  | e1 :: e2 :: rest, i0 =>
      if e1 ≤ (v : WithTop ℚ) ∧ (v : WithTop ℚ) < e2 then some i0
      else findBucketAux v (e2 :: rest) (i0 + 1)
  | _, _ => none

/-- The (1-based) bucket of `v` for break list `edges`, or `none` when `v`
falls outside every interval (`pd.cut` yields NaN there). -/
def findBucket (v : ℚ) (edges : List (WithTop ℚ)) : Option ℕ :=
  findBucketAux v edges 1

/-- A row of the segmented table: the customer plus its `Recency_Bucket`
(label `R{rBucket}`) and `Frequency_Bucket` (label `F{fBucket}`). -/
structure BinnedCustomer where
  c : Customer
  rBucket : ℕ
  fBucket : ℕ
deriving DecidableEq, Repr

/-- The `Segment` column `F{i}_R{j}`, modelled by the (frequency, recency)
bucket-ordinal pair (the label string is injective in this pair). -/
def segKey (b : BinnedCustomer) : ℕ × ℕ :=
  (b.fBucket, b.rBucket)

/-- Equality of `Except` results is decidable, so concrete runs of the
segmenter can be evaluated by `decide`. -/
instance exceptDecEq {ε α : Type} [DecidableEq ε] [DecidableEq α] :
    DecidableEq (Except ε α)
  | Except.ok a, Except.ok b =>
    if h : a = b then isTrue (by rw [h])
    else isFalse (by intro hc; cases hc; exact h rfl)
  | Except.ok _, Except.error _ => isFalse (by intro hc; cases hc)
  | Except.error _, Except.ok _ => isFalse (by intro hc; cases hc)
  | Except.error e, Except.error f =>
    if h : e = f then isTrue (by rw [h])
    else isFalse (by intro hc; cases hc; exact h rfl)

/-- One row of the binning step: the row survives the `dropna` exactly when
both its recency and its frequency land in a bucket. -/
def binRow (rbins fbins : List (WithTop ℚ)) (c : Customer) :
    Option BinnedCustomer :=
  match findBucket c.recency rbins, findBucket c.frequency fbins with
  | some i, some j => some ⟨c, i, j⟩
  | _, _ => none

/-- `bin_customers(df, recency_bins, frequency_bins)`: resolve falsy bin
arguments to the module defaults, cut both metric columns (propagating the
`pd.cut` `ValueError`s), and drop every row with a NaN bucket.  The returned
CSV buffer is a serialization of the same table and is not modelled. -/
def bin_customers (df : List Customer)
    (recency_bins frequency_bins : Option (List (WithTop ℚ))) :
    Except CutError (List BinnedCustomer) :=
  let rbins := resolveBins recency_bins DEFAULT_RECENCY_BINS
  let fbins := resolveBins frequency_bins DEFAULT_FREQUENCY_BINS
  match cutValidate rbins with
  | some e => Except.error e
  | none =>
    match cutValidate fbins with
    | some e => Except.error e
    | none => Except.ok (df.filterMap (binRow rbins fbins))

/-- Python's built-in `round` on an exact rational: round half to even.
(`Rat.floor` is used rather than `Int.floor` so the function evaluates
inside the kernel; the two agree, see `ratFloor_eq_floor` below.) -/
def roundHalfEven (q : ℚ) : ℤ :=
  let f : ℤ := q.floor
  let frac : ℚ := q - f
  if frac < 1/2 then f
  else if 1/2 < frac then f + 1
  else if f % 2 = 0 then f else f + 1

/-- `Rat.floor` agrees with the `⌊·⌋` of the `FloorRing` instance. -/
theorem ratFloor_eq_floor (q : ℚ) : q.floor = ⌊q⌋ :=
  (Rat.floor_def' q).trans Rat.floor_def.symm

/-- `xs.iloc[a:b]` for a DataFrame of length `n`: a negative endpoint counts
from the end, endpoints are clamped into `[0, n]`, and a reversed range is
empty. -/
def ilocSlice {α : Type} (xs : List α) (a b : ℤ) : List α :=
  let n : ℤ := xs.length
  let ra : ℤ := if a < 0 then max (n + a) 0 else min a n
  let rb : ℤ := if b < 0 then max (n + b) 0 else min b n
  (xs.drop ra.toNat).take (rb - ra).toNat

/-- Apply a positional permutation to the rows of a list:
`df.sample(frac=1, random_state=seed).reset_index(drop=True)` reorders the
positions of the rows by a permutation that depends only on the seed and the
row count. -/
def applyPerm {α : Type} (xs : List α) (p : Equiv.Perm (Fin xs.length)) :
    List α :=
  List.ofFn (fun i => xs.get (p i))

/-- The `sample_sizes` dict: population-wide targets for the three groups. -/
structure SampleSizes where
  test : ℕ
  control : ℕ
  holdout : ℕ
deriving DecidableEq, Repr

/-- Module default `DEFAULT_SAMPLE_SIZES`. -/
def DEFAULT_SAMPLE_SIZES : SampleSizes :=
  ⟨7500, 7500, 15000⟩

/-- `int(round(target * proportion))`: the pre-shortfall desired count of one
group in one segment. -/
def desiredCount (target : ℕ) (proportion : ℚ) : ℤ :=
  roundHalfEven ((target : ℚ) * proportion)

/-- The shortfall adjustment: when the segment has fewer rows than
`total_needed`, rescale the test and control counts by
`len(segment) / total_needed`, re-round them, and give the holdout group the
remainder `len(segment) - n_test - n_control`. -/
def adjustCounts (len : ℕ) (nTest nControl nHoldout : ℤ) : ℤ × ℤ × ℤ :=
  if (len : ℤ) < nTest + nControl + nHoldout then
    let factor : ℚ := (len : ℚ) / ((nTest + nControl + nHoldout : ℤ) : ℚ)
    let nT := roundHalfEven ((nTest : ℚ) * factor)
    let nC := roundHalfEven ((nControl : ℚ) * factor)
    (nT, nC, (len : ℤ) - nT - nC)
  else
    (nTest, nControl, nHoldout)

/-- The three labeled outputs of one sampling run (the `Group` column values
`"Test"`, `"Control"`, `"Holdout"`). -/
structure GroupOutputs where
  test : List BinnedCustomer
  control : List BinnedCustomer
  holdout : List BinnedCustomer
deriving DecidableEq, Repr

/-- The body of the per-segment loop of `stratified_sample`: compute the
rounded desired counts from the segment proportion, shuffle the segment
deterministically, apply the shortfall adjustment, and slice the shuffled
rows into the three groups in the fixed order test, control, holdout. -/
def sampleSegment (sh : ℕ → (n : ℕ) → Equiv.Perm (Fin n)) (seed : ℕ)
    (sizes : SampleSizes) (proportion : ℚ) (rows : List BinnedCustomer) :
    GroupOutputs :=
  let nTest := desiredCount sizes.test proportion
  let nControl := desiredCount sizes.control proportion
  let nHoldout := desiredCount sizes.holdout proportion
  let shuffled := applyPerm rows (sh seed rows.length)
  let adjusted := adjustCounts rows.length nTest nControl nHoldout
  let nT := adjusted.1
  let nC := adjusted.2.1
  let nH := adjusted.2.2
  ⟨ilocSlice shuffled 0 nT,
   ilocSlice shuffled nT (nT + nC),
   ilocSlice shuffled (nT + nC) (nT + nC + nH)⟩

/-- The distinct values of a list in order of first occurrence. -/
def distinctFirst {α : Type} [DecidableEq α] (l : List α) : List α :=
  l.foldl (fun acc x => if x ∈ acc then acc else acc.concat x) []

/-- Stable insertion for a descending sort by count: the new key goes in
front of the first key with a strictly smaller count. -/
def insertCountDesc {α : Type} (cnt : α → ℕ) (k : α) : List α → List α
  | [] => [k]
  | x :: xs => if cnt x < cnt k then k :: x :: xs else x :: insertCountDesc cnt k xs

/-- Stable descending sort by count (insertion sort). -/
def sortCountDesc {α : Type} (cnt : α → ℕ) : List α → List α
  | [] => []
  | x :: xs => insertCountDesc cnt x (sortCountDesc cnt xs)

/-- The iteration order of `df["Segment"].value_counts()`: the distinct
segment keys sorted by their row count, descending, ties keeping first
occurrence order. -/
def segKeys (df : List BinnedCustomer) : List (ℕ × ℕ) :=
  sortCountDesc (fun k => (df.filter (fun r => segKey r = k)).length)
    (distinctFirst (df.map segKey))

/-- `stratified_sample(df, sample_sizes, seed)` without the ambient-state
effects: resolve the sizes dict (`sample_sizes or DEFAULT_SAMPLE_SIZES`),
and for every segment slice its shuffled rows per the adjusted counts;
each group's final table is the concatenation of its per-segment slices. -/
def stratified_sample (sh : ℕ → (n : ℕ) → Equiv.Perm (Fin n))
    (df : List BinnedCustomer) (sample_sizes : Option SampleSizes)
    (seed : ℕ := RANDOM_SEED) : GroupOutputs :=
  let sizes := sample_sizes.getD DEFAULT_SAMPLE_SIZES
  let keys := segKeys df
  let outs := keys.map (fun k =>
    sampleSegment sh seed sizes
      (((df.filter (fun r => segKey r = k)).length : ℚ) / (df.length : ℚ))
      (df.filter (fun r => segKey r = k)))
  ⟨(outs.map GroupOutputs.test).flatten,
   (outs.map GroupOutputs.control).flatten,
   (outs.map GroupOutputs.holdout).flatten⟩

/-- The process-wide mutable state `stratified_sample` touches: the global
numpy random generator state set by `np.random.seed`. -/
structure World where
  npRandomState : ℕ
deriving DecidableEq, Repr

/-- A run of `stratified_sample` with its ambient effect: the first statement
`np.random.seed(seed)` overwrites the global generator state; the shuffles
themselves use `random_state=seed` directly, not the global generator. -/
def stratified_sample_run (sh : ℕ → (n : ℕ) → Equiv.Perm (Fin n)) (_w : World)
    (df : List BinnedCustomer) (sample_sizes : Option SampleSizes)
    (seed : ℕ) : World × GroupOutputs :=
  (⟨seed⟩, stratified_sample sh df sample_sizes seed)

/-- The identity permutation family, a concrete admissible instance of the
positional-shuffle parameter. -/
def shId : ℕ → (n : ℕ) → Equiv.Perm (Fin n) :=
  fun _ n => Equiv.refl (Fin n)

/-- A calendar date (the parsed `day` column). -/
structure Date where
  year : ℤ
  month : ℤ
  dayOfMonth : ℤ
deriving DecidableEq, Repr

/-- Lexicographic strictly-before test on dates. -/
def dateLtB (a b : Date) : Bool :=
  if a.year ≠ b.year then a.year < b.year
  else if a.month ≠ b.month then a.month < b.month
  else a.dayOfMonth < b.dayOfMonth

/-- Binary maximum of two dates. -/
def dateMax (a b : Date) : Date :=
  if dateLtB a b then b else a

/-- `Series.max()` over the `day` column with pandas NaT-skipping: `none`
(NaT) entries are ignored; an all-missing column yields NaT. -/
def maxDay (l : List (Option Date)) : Option Date :=
  l.foldl (fun acc d =>
    match acc, d with
    | none, d => d
    | some m, none => some m
    | some m, some d => some (dateMax m d)) none

/-- A raw order row as uploaded: identifier columns may be missing (NaN). -/
structure RawOrder where
  customer_id : Option String
  customer_email : Option String
  order_id : Option String
  day : Option Date
  gross_sales : ℚ
  discounts : ℚ
  net_sales : ℚ
deriving DecidableEq, Repr

/-- A cleaned order row: after `astype(str)` the identifier columns hold
honest strings (a missing value has become the literal string "nan"). -/
structure CleanOrder where
  customer_id : String
  customer_email : String
  order_id : String
  day : Option Date
  gross_sales : ℚ
  discounts : ℚ
  net_sales : ℚ
deriving DecidableEq, Repr

/-- `column.astype(str)`: numpy stringifies a missing value (`np.nan`) to the
literal string `"nan"` instead of keeping it missing. -/
def astypeStr : Option String → String
  | none => "nan"
  | some s => s

/-- Is a value of a Python-string column missing, for `dropna`?  Never: a
`str` object (including the literal `"nan"` produced by `astype(str)`) is
not NaN, so `dropna` on a stringified column keeps every row. -/
def strIsNA (_s : String) : Bool :=
  false

/-- `clean_and_convert_data(df)`: parse the `day` column
(`errors="coerce"` keeps unparseable entries missing, modelled by the field
already being an `Option`), convert the identifier and email columns with
`astype(str)`, then `dropna` on those three columns. -/
def clean_and_convert_data (df : List RawOrder) : List CleanOrder :=
  (df.map (fun r =>
    ({ customer_id := astypeStr r.customer_id
       customer_email := astypeStr r.customer_email
       order_id := astypeStr r.order_id
       day := r.day
       gross_sales := r.gross_sales
       discounts := r.discounts
       net_sales := r.net_sales } : CleanOrder))).filter
    (fun r => !(strIsNA r.customer_id || strIsNA r.customer_email ||
                strIsNA r.order_id))

/-- Strictly-ascending test on (customer_id, customer_email) group keys. -/
def keyLtB (a b : String × String) : Bool :=
  match compare a.1 b.1 with
  | Ordering.lt => true
  | Ordering.gt => false
  | Ordering.eq => compare a.2 b.2 == Ordering.lt

/-- Ascending insertion for the groupby key sort. -/
def insertKeyAsc (k : String × String) :
    List (String × String) → List (String × String)
  | [] => [k]
  | x :: xs => if keyLtB k x then k :: x :: xs else x :: insertKeyAsc k xs

/-- Ascending sort of the group keys (`groupby` defaults to `sort=True`). -/
def sortKeysAsc : List (String × String) → List (String × String)
  | [] => []
  | x :: xs => insertKeyAsc x (sortKeysAsc xs)

/-- `Series.nunique()` on the `order_id` column: the number of distinct
non-missing values (after cleaning the column holds only strings). -/
def nuniqueStr (l : List String) : ℕ :=
  l.dedup.length

/-- One row of the aggregated customer summary. -/
structure CustomerSummary where
  customer_id : String
  customer_email : String
  frequency : ℕ
  last_order_date : Option Date
  gross_sales : ℚ
  discounts : ℚ
  net_sales : ℚ
  recency : Option ℤ
deriving DecidableEq, Repr

/-- `aggregate_customer_data(df, current_date)`: group the cleaned order rows
by `(customer_id, customer_email)` (pandas sorts the group keys; its default
`dropna=True` would silently drop rows with a missing key, but after
`astype(str)` the keys are plain strings), aggregate each group, derive the
recency in whole months, then `dropna(subset=["customer_email"])` — on a
stringified column this final drop keeps every row.  The CSV side effect
(`to_csv`) is not modelled. -/
def aggregate_customer_data (df : List CleanOrder) (current_date : Date) :
    List CustomerSummary :=
  let keys := sortKeysAsc (distinctFirst
    (df.map (fun r => (r.customer_id, r.customer_email))))
  ((keys.map (fun k =>
    let g := df.filter (fun r => (r.customer_id, r.customer_email) = k)
    let lastd := maxDay (g.map CleanOrder.day)
    ({ customer_id := k.1
       customer_email := k.2
       frequency := nuniqueStr (g.map CleanOrder.order_id)
       last_order_date := lastd
       gross_sales := (g.map CleanOrder.gross_sales).sum
       discounts := (g.map CleanOrder.discounts).sum
       net_sales := (g.map CleanOrder.net_sales).sum
       recency := lastd.map (fun d =>
         (current_date.year - d.year) * 12 +
           (current_date.month - d.month)) } : CustomerSummary))).filter
    (fun s => !(strIsNA s.customer_email)))

/-- The caller's table after `bin_customers` returns: the function mutates
`df` in place (bucket-column assignment and `dropna(..., inplace=True)`) and
returns it, so on success the caller's variable holds the binned, filtered
table (projected here to the customer fields), not the original rows. -/
def bin_customers_post_input (df : List Customer)
    (recency_bins frequency_bins : Option (List (WithTop ℚ))) :
    Option (List Customer) :=
  match bin_customers df recency_bins frequency_bins with
  | Except.ok out => some (out.map BinnedCustomer.c)
  | Except.error _ => none

/-- A two-row single-segment input, first row. -/
def rowA : BinnedCustomer := ⟨⟨1, 0, 1⟩, 1, 1⟩

/-- A two-row single-segment input, second row. -/
def rowB : BinnedCustomer := ⟨⟨2, 0, 1⟩, 1, 1⟩

/-- Target sizes Test=1, Control=1, Holdout=0. -/
def sizesTC : SampleSizes := ⟨1, 1, 0⟩

/-! ### Arithmetic lemmas for the rounding function -/

/-- `roundHalfEven` unfolded over `Int.floor`. -/
theorem roundHalfEven_def (q : ℚ) :
    roundHalfEven q =
      if q - ⌊q⌋ < 1/2 then ⌊q⌋
      else if 1/2 < q - ⌊q⌋ then ⌊q⌋ + 1
      else if ⌊q⌋ % 2 = 0 then ⌊q⌋ else ⌊q⌋ + 1 := by
  simp only [roundHalfEven, ratFloor_eq_floor]

/-- Rounding lands on the floor or its successor. -/
theorem roundHalfEven_eq_floor_or_succ (q : ℚ) :
    roundHalfEven q = ⌊q⌋ ∨ roundHalfEven q = ⌊q⌋ + 1 := by
  rw [roundHalfEven_def]
  split_ifs <;> simp

/-- Rounding a nonnegative rational is nonnegative. -/
theorem roundHalfEven_nonneg {q : ℚ} (hq : 0 ≤ q) : 0 ≤ roundHalfEven q := by
  have hf : (0 : ℤ) ≤ ⌊q⌋ := Int.floor_nonneg.2 hq
  rcases roundHalfEven_eq_floor_or_succ q with h | h <;> omega

/-- Rounding moves a rational by at most one half. -/
theorem abs_roundHalfEven_sub_le (q : ℚ) :
    |((roundHalfEven q : ℤ) : ℚ) - q| ≤ 1/2 := by
  have h0 : (⌊q⌋ : ℚ) ≤ q := Int.floor_le q
  have h1 : q < (⌊q⌋ : ℚ) + 1 := Int.lt_floor_add_one q
  rw [roundHalfEven_def]
  split_ifs with hlt hgt heven
  · rw [abs_sub_comm, abs_of_nonneg (by linarith)]
    linarith
  · rw [abs_of_nonneg (by push_cast; linarith)]
    push_cast
    linarith
  · have hfrac : q - (⌊q⌋ : ℚ) = 1/2 := le_antisymm (not_lt.1 hgt) (not_lt.1 hlt)
    rw [abs_sub_comm, abs_of_nonneg (by linarith)]
    linarith
  · have hfrac : q - (⌊q⌋ : ℚ) = 1/2 := le_antisymm (not_lt.1 hgt) (not_lt.1 hlt)
    rw [abs_of_nonneg (by push_cast; linarith)]
    push_cast
    linarith

/-- Rounding fixes the integers. -/
theorem roundHalfEven_intCast (n : ℤ) : roundHalfEven (n : ℚ) = n := by
  rw [roundHalfEven_def]
  simp

/-! ### Lemmas about iloc slicing and the positional shuffle -/

/-- A positional shuffle keeps the number of rows. -/
theorem applyPerm_length {α : Type} (xs : List α)
    (p : Equiv.Perm (Fin xs.length)) : (applyPerm xs p).length = xs.length := by
  simp [applyPerm]

/-- Length of an iloc slice with nonnegative endpoints. -/
theorem ilocSlice_length_nonneg {α : Type} (xs : List α) (a b : ℤ)
    (ha : 0 ≤ a) (hb : 0 ≤ b) :
    (ilocSlice xs a b).length =
      (min b (xs.length : ℤ)).toNat - (min a (xs.length : ℤ)).toNat := by
  simp only [ilocSlice, if_neg (not_lt.2 ha), if_neg (not_lt.2 hb),
    List.length_take, List.length_drop]
  omega

/-! ### Per-segment allocation facts -/

/-- A desired count for a nonnegative proportion is nonnegative. -/
theorem desiredCount_nonneg (target : ℕ) {p : ℚ} (hp : 0 ≤ p) :
    0 ≤ desiredCount target p :=
  roundHalfEven_nonneg (mul_nonneg (by positivity) hp)

/-- The adjusted counts: test and control stay nonnegative, and the three
counts either sum to exactly the segment size (shortfall branch) or are the
unchanged desired counts, which then fit into the segment. -/
theorem adjustCounts_spec (len : ℕ) (d1 d2 d3 : ℤ)
    (h1 : 0 ≤ d1) (h2 : 0 ≤ d2) (_h3 : 0 ≤ d3) :
    0 ≤ (adjustCounts len d1 d2 d3).1 ∧
    0 ≤ (adjustCounts len d1 d2 d3).2.1 ∧
    (((len : ℤ) < d1 + d2 + d3 ∧
        (adjustCounts len d1 d2 d3).1 + (adjustCounts len d1 d2 d3).2.1 +
          (adjustCounts len d1 d2 d3).2.2 = len) ∨
      ((adjustCounts len d1 d2 d3).1 = d1 ∧ (adjustCounts len d1 d2 d3).2.1 = d2 ∧
        (adjustCounts len d1 d2 d3).2.2 = d3 ∧ d1 + d2 + d3 ≤ (len : ℤ))) := by
  simp only [adjustCounts]
  split_ifs with hsf
  · have htot : (0 : ℤ) < d1 + d2 + d3 := by
      have : (0 : ℤ) ≤ (len : ℤ) := Int.ofNat_nonneg len
      omega
    have hfac : (0 : ℚ) ≤ (len : ℚ) / ((d1 + d2 + d3 : ℤ) : ℚ) := by
      apply div_nonneg (by positivity)
      exact_mod_cast le_of_lt htot
    refine ⟨roundHalfEven_nonneg (mul_nonneg (by exact_mod_cast h1) hfac),
      roundHalfEven_nonneg (mul_nonneg (by exact_mod_cast h2) hfac), ?_⟩
    exact Or.inl ⟨hsf, by ring⟩
  · exact ⟨h1, h2, Or.inr ⟨rfl, rfl, rfl, by omega⟩⟩

/-- The three group slices of one segment never over-allocate: their lengths
sum to at most the segment size, whichever branch of the shortfall
adjustment is taken. -/
theorem sampleSegment_sum_le (sh : ℕ → (n : ℕ) → Equiv.Perm (Fin n))
    (seed : ℕ) (sizes : SampleSizes) {p : ℚ} (hp : 0 ≤ p)
    (rows : List BinnedCustomer) :
    (sampleSegment sh seed sizes p rows).test.length +
      (sampleSegment sh seed sizes p rows).control.length +
      (sampleSegment sh seed sizes p rows).holdout.length ≤ rows.length := by
  obtain ⟨hT, hC, hcase⟩ := adjustCounts_spec rows.length
    (desiredCount sizes.test p) (desiredCount sizes.control p)
    (desiredCount sizes.holdout p)
    (desiredCount_nonneg _ hp) (desiredCount_nonneg _ hp)
    (desiredCount_nonneg _ hp)
  simp only [sampleSegment]
  set t := adjustCounts rows.length (desiredCount sizes.test p)
    (desiredCount sizes.control p) (desiredCount sizes.holdout p) with ht
  set s := applyPerm rows (sh seed rows.length) with hs
  have hslen : s.length = rows.length := applyPerm_length _ _
  have hsum0 : 0 ≤ t.1 + t.2.1 + t.2.2 := by
    rcases hcase with ⟨_, heq⟩ | ⟨he1, he2, he3, _⟩
    · rw [heq]; exact Int.ofNat_nonneg _
    · have h3 := desiredCount_nonneg sizes.holdout hp
      rw [ht, he1, he2, he3]
      omega
  rw [ilocSlice_length_nonneg s 0 t.1 le_rfl hT,
    ilocSlice_length_nonneg s t.1 (t.1 + t.2.1) hT (by omega),
    ilocSlice_length_nonneg s (t.1 + t.2.1) (t.1 + t.2.1 + t.2.2) (by omega)
      hsum0, hslen]
  rcases hcase with ⟨_, heq⟩ | ⟨he1, he2, he3, hle⟩
  · omega
  · rw [ht, he1, he2, he3]
    have h3 := desiredCount_nonneg sizes.holdout hp
    omega

/-- In the shortfall branch the three slices exactly exhaust the segment. -/
theorem sampleSegment_sum_eq_of_shortfall (sh : ℕ → (n : ℕ) → Equiv.Perm (Fin n))
    (seed : ℕ) (sizes : SampleSizes) {p : ℚ} (hp : 0 ≤ p)
    (rows : List BinnedCustomer)
    (hsf : (rows.length : ℤ) < desiredCount sizes.test p +
      desiredCount sizes.control p + desiredCount sizes.holdout p) :
    (sampleSegment sh seed sizes p rows).test.length +
      (sampleSegment sh seed sizes p rows).control.length +
      (sampleSegment sh seed sizes p rows).holdout.length = rows.length := by
  obtain ⟨hT, hC, hcase⟩ := adjustCounts_spec rows.length
    (desiredCount sizes.test p) (desiredCount sizes.control p)
    (desiredCount sizes.holdout p)
    (desiredCount_nonneg _ hp) (desiredCount_nonneg _ hp)
    (desiredCount_nonneg _ hp)
  have heq : (adjustCounts rows.length (desiredCount sizes.test p)
      (desiredCount sizes.control p) (desiredCount sizes.holdout p)).1 +
      (adjustCounts rows.length (desiredCount sizes.test p)
      (desiredCount sizes.control p) (desiredCount sizes.holdout p)).2.1 +
      (adjustCounts rows.length (desiredCount sizes.test p)
      (desiredCount sizes.control p) (desiredCount sizes.holdout p)).2.2 =
      (rows.length : ℤ) := by
    rcases hcase with ⟨_, h⟩ | ⟨he1, he2, he3, hle⟩
    · exact h
    · rw [he1, he2, he3]
      omega
  simp only [sampleSegment]
  set t := adjustCounts rows.length (desiredCount sizes.test p)
    (desiredCount sizes.control p) (desiredCount sizes.holdout p) with ht
  set s := applyPerm rows (sh seed rows.length) with hs
  have hslen : s.length = rows.length := applyPerm_length _ _
  have hsum0 : 0 ≤ t.1 + t.2.1 + t.2.2 := by rw [heq]; exact Int.ofNat_nonneg _
  rw [ilocSlice_length_nonneg s 0 t.1 le_rfl hT,
    ilocSlice_length_nonneg s t.1 (t.1 + t.2.1) hT (by omega),
    ilocSlice_length_nonneg s (t.1 + t.2.1) (t.1 + t.2.1 + t.2.2) (by omega)
      hsum0, hslen]
  omega

/-- C1: for every segmented input, group-target map and seed, and every
segment `S` of the run (the rows whose `Segment` key is `k`, sampled at that
segment's proportion of the population), the per-group assigned row counts
sum to at most `|S|` and every per-group assigned count is nonnegative. -/
theorem c1_segment_never_overallocates (sh : ℕ → (n : ℕ) → Equiv.Perm (Fin n))
    (df : List BinnedCustomer) (sizes : SampleSizes) (seed : ℕ) (k : ℕ × ℕ) :
    let S := df.filter (fun r => segKey r = k)
    let out := sampleSegment sh seed sizes ((S.length : ℚ) / (df.length : ℚ)) S
    out.test.length + out.control.length + out.holdout.length ≤ S.length ∧
      (0 : ℤ) ≤ (out.test.length : ℤ) ∧ (0 : ℤ) ≤ (out.control.length : ℤ) ∧
      (0 : ℤ) ≤ (out.holdout.length : ℤ) := by
  intro S out
  refine ⟨sampleSegment_sum_le sh seed sizes ?_ S, ?_, ?_, ?_⟩
  · positivity
  · exact Int.ofNat_nonneg _
  · exact Int.ofNat_nonneg _
  · exact Int.ofNat_nonneg _

/-- C2: whenever a segment is in shortfall (the rounded desired counts sum
past the segment size), the assigned row counts of the three groups sum to
exactly the segment size. -/
theorem c2_shortfall_exhausts_segment (sh : ℕ → (n : ℕ) → Equiv.Perm (Fin n))
    (df : List BinnedCustomer) (sizes : SampleSizes) (seed : ℕ) (k : ℕ × ℕ) :
    let S := df.filter (fun r => segKey r = k)
    let p : ℚ := (S.length : ℚ) / (df.length : ℚ)
    (S.length : ℤ) < desiredCount sizes.test p + desiredCount sizes.control p +
        desiredCount sizes.holdout p →
    (sampleSegment sh seed sizes p S).test.length +
      (sampleSegment sh seed sizes p S).control.length +
      (sampleSegment sh seed sizes p S).holdout.length = S.length := by
  intro S p hsf
  exact sampleSegment_sum_eq_of_shortfall sh seed sizes (by positivity) S hsf

/-- A ten-row single-segment population (the shortfall example of the spec:
ten rows, per-segment targets summing to twelve). -/
def tenRows : List BinnedCustomer :=
  (List.range 10).map (fun i => ⟨⟨i, 0, 1⟩, 1, 1⟩)

/-- Witness for C2 at the concrete shortfall instance: ten rows in one
segment, targets 4/4/4 (so desired counts sum to 12 > 10); the assigned
totals sum to exactly 10. -/
theorem c2_shortfall_exhausts_segment_witness :
    (((tenRows.filter (fun r => segKey r = (1, 1))).length : ℤ) <
        desiredCount (4 : ℕ)
          (((tenRows.filter (fun r => segKey r = (1, 1))).length : ℚ) /
            (tenRows.length : ℚ)) +
        desiredCount (4 : ℕ)
          (((tenRows.filter (fun r => segKey r = (1, 1))).length : ℚ) /
            (tenRows.length : ℚ)) +
        desiredCount (4 : ℕ)
          (((tenRows.filter (fun r => segKey r = (1, 1))).length : ℚ) /
            (tenRows.length : ℚ))) ∧
    (sampleSegment shId 42 ⟨4, 4, 4⟩
          (((tenRows.filter (fun r => segKey r = (1, 1))).length : ℚ) /
            (tenRows.length : ℚ))
          (tenRows.filter (fun r => segKey r = (1, 1)))).test.length +
      (sampleSegment shId 42 ⟨4, 4, 4⟩
          (((tenRows.filter (fun r => segKey r = (1, 1))).length : ℚ) /
            (tenRows.length : ℚ))
          (tenRows.filter (fun r => segKey r = (1, 1)))).control.length +
      (sampleSegment shId 42 ⟨4, 4, 4⟩
          (((tenRows.filter (fun r => segKey r = (1, 1))).length : ℚ) /
            (tenRows.length : ℚ))
          (tenRows.filter (fun r => segKey r = (1, 1)))).holdout.length =
      (tenRows.filter (fun r => segKey r = (1, 1))).length :=
  ⟨by decide, c2_shortfall_exhausts_segment shId tenRows ⟨4, 4, 4⟩ 42 (1, 1) (by decide)⟩

/-! ### Characterization of the pd.cut bucket search -/

/-- On a pairwise strictly increasing break list, an earlier edge is at most
a later one. -/
theorem getD_mono_of_pairwise {edges : List (WithTop ℚ)}
    (hp : List.Pairwise (· < ·) edges) {i j : ℕ} (hij : i ≤ j)
    (hj : j < edges.length) :
    edges.getD i ⊤ ≤ edges.getD j ⊤ := by
  rcases Nat.lt_or_ge i j with hlt | hge
  · have hi : i < edges.length := lt_trans hlt hj
    rw [List.getD_eq_getElem _ _ hi, List.getD_eq_getElem _ _ hj]
    exact le_of_lt (List.pairwise_iff_getElem.1 hp i j hi hj hlt)
  · have hij' : i = j := le_antisymm hij hge
    rw [hij']

/-- First-match characterization of the bucket search on a strictly
increasing break list: the search starting at bucket index `i0` returns
`i0 + j` exactly when the half-open window at offset `j` contains the
value. -/
theorem findBucketAux_eq_some_iff (v : ℚ) :
    ∀ (edges : List (WithTop ℚ)), List.Pairwise (· < ·) edges →
      ∀ (i0 i : ℕ),
        (findBucketAux v edges i0 = some i ↔
          ∃ j, i = i0 + j ∧ j + 1 < edges.length ∧
            edges.getD j ⊤ ≤ (v : WithTop ℚ) ∧
            (v : WithTop ℚ) < edges.getD (j + 1) ⊤)
  | [], _, i0, i => by
      constructor
      · intro h
        simp [findBucketAux] at h
      · rintro ⟨j, _, hj, _⟩
        simp at hj
  | [e1], _, i0, i => by
      constructor
      · intro h
        simp [findBucketAux] at h
      · rintro ⟨j, _, hj, _⟩
        simp at hj
  | e1 :: e2 :: rest, hp, i0, i => by
      have hp' : List.Pairwise (· < ·) (e2 :: rest) := (List.pairwise_cons.1 hp).2
      by_cases hcond : e1 ≤ (v : WithTop ℚ) ∧ (v : WithTop ℚ) < e2
      · rw [findBucketAux, if_pos hcond]
        constructor
        · intro h
          have hi : i = i0 := by
            have := Option.some.inj h
            omega
          subst hi
          exact ⟨0, by omega, by simp, by simpa using hcond.1, by simpa using hcond.2⟩
        · rintro ⟨j, hij, hlen, hle, _⟩
          rcases Nat.eq_zero_or_pos j with rfl | hjpos
          · rw [hij]
            simp
          · exfalso
            have h2j : (e1 :: e2 :: rest).getD 1 ⊤ ≤ (e1 :: e2 :: rest).getD j ⊤ :=
              getD_mono_of_pairwise hp hjpos (by omega)
            have hvj : (v : WithTop ℚ) < (e1 :: e2 :: rest).getD j ⊤ := by
              refine lt_of_lt_of_le hcond.2 ?_
              simpa using h2j
            exact absurd hle (not_le.2 hvj)
      · rw [findBucketAux, if_neg hcond]
        rw [findBucketAux_eq_some_iff v (e2 :: rest) hp' (i0 + 1) i]
        constructor
        · rintro ⟨j', hij, hlen, hle, hlt⟩
          refine ⟨j' + 1, by omega, by simpa using hlen, ?_, ?_⟩
          · simpa using hle
          · simpa using hlt
        · rintro ⟨j, hij, hlen, hle, hlt⟩
          rcases Nat.eq_zero_or_pos j with rfl | hjpos
          · exact absurd ⟨by simpa using hle, by simpa using hlt⟩ hcond
          · obtain ⟨j', rfl⟩ : ∃ j', j = j' + 1 := ⟨j - 1, by omega⟩
            refine ⟨j', by omega, by simpa using hlen, ?_, ?_⟩
            · simpa using hle
            · simpa using hlt

/-- The binning rule, as the spec states it: value `v` lands in (1-based)
bucket `i` iff `edges[i-1] ≤ v < edges[i]`, for a strictly increasing break
list. -/
theorem findBucket_eq_some_iff (edges : List (WithTop ℚ))
    (hmono : List.Chain' (· < ·) edges) (v : ℚ) (i : ℕ) :
    findBucket v edges = some i ↔
      (1 ≤ i ∧ i < edges.length ∧
        edges.getD (i - 1) ⊤ ≤ (v : WithTop ℚ) ∧
        (v : WithTop ℚ) < edges.getD i ⊤) := by
  have hp : List.Pairwise (· < ·) edges := List.chain'_iff_pairwise.1 hmono
  rw [findBucket, findBucketAux_eq_some_iff v edges hp 1 i]
  constructor
  · rintro ⟨j, rfl, hlen, hle, hlt⟩
    have e1 : 1 + j - 1 = j := by omega
    have e2 : 1 + j = j + 1 := by omega
    refine ⟨by omega, by omega, ?_, ?_⟩
    · rw [e1]; exact hle
    · rw [e2]; exact hlt
  · rintro ⟨h1, h2, hle, hlt⟩
    refine ⟨i - 1, by omega, by omega, hle, ?_⟩
    have e1 : i - 1 + 1 = i := by omega
    rw [e1]; exact hlt

/-- A break list passing both `pd.cut` checks is strictly increasing. -/
theorem chain'_of_checks :
    ∀ (edges : List (WithTop ℚ)), hasDecreasingStep edges = false →
      hasDuplicate edges = false → List.Chain' (· < ·) edges
  | [], _, _ => trivial
  | [_], _, _ => List.chain'_singleton _
  | e1 :: e2 :: rest, h1, h2 => by
      rw [hasDecreasingStep] at h1
      rw [hasDuplicate] at h2
      have hnlt : ¬ e2 < e1 := by
        by_contra hc
        rw [if_pos hc] at h1
        cases h1
      rw [if_neg hnlt] at h1
      have hmem : ¬ e1 ∈ e2 :: rest := by
        by_contra hc
        rw [if_pos hc] at h2
        cases h2
      rw [if_neg hmem] at h2
      have hne12 : e1 ≠ e2 := fun he => hmem (he ▸ List.mem_cons_self e1 _)
      have h12 : e1 < e2 := by
        rcases lt_trichotomy e1 e2 with h | h | h
        · exact h
        · exact absurd h hne12
        · exact absurd h hnlt
      exact List.chain'_cons.2 ⟨h12, chain'_of_checks (e2 :: rest) h1 h2⟩

/-- Conversely, a strictly increasing break list passes both checks. -/
theorem checks_of_chain' :
    ∀ (edges : List (WithTop ℚ)), List.Chain' (· < ·) edges →
      hasDecreasingStep edges = false ∧ hasDuplicate edges = false
  | [], _ => ⟨rfl, rfl⟩
  | [_], _ => ⟨rfl, rfl⟩
  | e1 :: e2 :: rest, h => by
      have hp : List.Pairwise (· < ·) (e1 :: e2 :: rest) :=
        List.chain'_iff_pairwise.1 h
      obtain ⟨hhead, hp'⟩ := List.pairwise_cons.1 hp
      have h12 : e1 < e2 := hhead e2 (List.mem_cons_self _ _)
      obtain ⟨ih1, ih2⟩ := checks_of_chain' (e2 :: rest)
        (List.chain'_cons.1 h).2
      constructor
      · rw [hasDecreasingStep, if_neg (not_lt.2 (le_of_lt h12)), ih1]
      · have hmem : ¬ e1 ∈ e2 :: rest := by
          intro hc
          exact absurd rfl (ne_of_lt (hhead e1 hc))
        rw [hasDuplicate, if_neg hmem, ih2]

/-- A nonempty explicit bin list is used as passed (Python `or` does not
replace a truthy argument). -/
theorem resolveBins_some_of_ne_nil {edges : List (WithTop ℚ)}
    (h : edges ≠ []) (dflt : List (WithTop ℚ)) :
    resolveBins (some edges) dflt = edges := by
  cases edges with
  | nil => exact absurd rfl h
  | cons e tl => rfl

/-- A successful `bin_customers` call returns exactly the per-row binning of
its input under the resolved break lists. -/
theorem bin_customers_ok (df : List Customer)
    (rb fb : Option (List (WithTop ℚ))) (out : List BinnedCustomer)
    (h : bin_customers df rb fb = Except.ok out) :
    out = df.filterMap (binRow (resolveBins rb DEFAULT_RECENCY_BINS)
      (resolveBins fb DEFAULT_FREQUENCY_BINS)) := by
  simp only [bin_customers] at h
  split at h
  · exact absurd h (by simp)
  · split at h
    · exact absurd h (by simp)
    · exact (Except.ok.inj h).symm

/-- Every row of a successful `bin_customers` output carries the buckets the
search assigns to its own metrics. -/
theorem mem_bin_customers_ok (df : List Customer)
    (rb fb : Option (List (WithTop ℚ))) (out : List BinnedCustomer)
    (h : bin_customers df rb fb = Except.ok out) {b : BinnedCustomer}
    (hb : b ∈ out) :
    findBucket b.c.recency (resolveBins rb DEFAULT_RECENCY_BINS) =
        some b.rBucket ∧
      findBucket b.c.frequency (resolveBins fb DEFAULT_FREQUENCY_BINS) =
        some b.fBucket := by
  rw [bin_customers_ok df rb fb out h] at hb
  obtain ⟨c, _, hc⟩ := List.mem_filterMap.1 hb
  unfold binRow at hc
  rcases hr : findBucket c.recency (resolveBins rb DEFAULT_RECENCY_BINS) with _ | i <;>
    rcases hf : findBucket c.frequency (resolveBins fb DEFAULT_FREQUENCY_BINS) with _ | j <;>
      rw [hr, hf] at hc <;> simp at hc
  obtain ⟨rfl⟩ := hc
  exact ⟨hr, hf⟩

/-- C3: on a strictly increasing, nonempty break list, value `v` lands in
bucket `i` iff `edges[i-1] ≤ v < edges[i]` (left-closed, right-open); the
search is a function, so a value has at most one bucket; a value below the
first edge, or at or above a finite last edge, has no bucket; and a customer
whose recency has no bucket appears in no successful segmented output. -/
theorem c3_binning_rule (edges : List (WithTop ℚ))
    (hmono : List.Chain' (· < ·) edges) (hne : edges ≠ []) (v : ℚ) (i : ℕ)
    (df : List Customer) (fb : Option (List (WithTop ℚ)))
    (out : List BinnedCustomer) (b : BinnedCustomer) :
    (findBucket v edges = some i ↔
      (1 ≤ i ∧ i < edges.length ∧
        edges.getD (i - 1) ⊤ ≤ (v : WithTop ℚ) ∧
        (v : WithTop ℚ) < edges.getD i ⊤)) ∧
    (((v : WithTop ℚ) < edges.getD 0 ⊤ ∨
        (∃ q : ℚ, edges.getD (edges.length - 1) ⊤ = (q : WithTop ℚ) ∧ q ≤ v)) →
      findBucket v edges = none) ∧
    (findBucket v edges = none →
      bin_customers df (some edges) fb = Except.ok out →
      b ∈ out → b.c.recency ≠ v) := by
  have hp : List.Pairwise (· < ·) edges := List.chain'_iff_pairwise.1 hmono
  refine ⟨findBucket_eq_some_iff edges hmono v i, ?_, ?_⟩
  · intro hout
    rcases hfb : findBucket v edges with _ | i0
    · rfl
    · exfalso
      obtain ⟨h1, h2, hle, hlt⟩ := (findBucket_eq_some_iff edges hmono v i0).1 hfb
      rcases hout with hbelow | ⟨q, hlast, hqv⟩
      · have h0 : edges.getD 0 ⊤ ≤ edges.getD (i0 - 1) ⊤ :=
          getD_mono_of_pairwise hp (Nat.zero_le _) (by omega)
        exact absurd (le_trans h0 hle) (not_le.2 hbelow)
      · have hil : edges.getD i0 ⊤ ≤ edges.getD (edges.length - 1) ⊤ :=
          getD_mono_of_pairwise hp (by omega) (by omega)
        have hvq : (v : WithTop ℚ) < (q : WithTop ℚ) :=
          lt_of_lt_of_le hlt (hlast ▸ hil)
        have : v < q := WithTop.coe_lt_coe.1 hvq
        exact absurd hqv (not_le.2 this)
  · intro hnone hok hb hrec
    have hmem := (mem_bin_customers_ok df (some edges) fb out hok hb).1
    rw [resolveBins_some_of_ne_nil hne, hrec, hnone] at hmem
    cases hmem

/-- Witness for C3 at the bounded three-edge list `[0, 1, 4]` and the value
`1/2`, which lands in bucket 1. -/
theorem c3_binning_rule_witness :
    List.Chain' (· < ·) ([0, 1, 4] : List (WithTop ℚ)) ∧
    ([0, 1, 4] : List (WithTop ℚ)) ≠ [] ∧
    ((findBucket (1/2) ([0, 1, 4] : List (WithTop ℚ)) = some 1 ↔
      (1 ≤ 1 ∧ 1 < ([0, 1, 4] : List (WithTop ℚ)).length ∧
        ([0, 1, 4] : List (WithTop ℚ)).getD (1 - 1) ⊤ ≤ ((1/2 : ℚ) : WithTop ℚ) ∧
        ((1/2 : ℚ) : WithTop ℚ) < ([0, 1, 4] : List (WithTop ℚ)).getD 1 ⊤)) ∧
    ((((1/2 : ℚ) : WithTop ℚ) < ([0, 1, 4] : List (WithTop ℚ)).getD 0 ⊤ ∨
        (∃ q : ℚ, ([0, 1, 4] : List (WithTop ℚ)).getD
            (([0, 1, 4] : List (WithTop ℚ)).length - 1) ⊤ = (q : WithTop ℚ) ∧
          q ≤ (1/2 : ℚ))) →
      findBucket (1/2) ([0, 1, 4] : List (WithTop ℚ)) = none) ∧
    (findBucket (1/2) ([0, 1, 4] : List (WithTop ℚ)) = none →
      bin_customers [] (some ([0, 1, 4] : List (WithTop ℚ))) none = Except.ok [] →
      rowA ∈ ([] : List BinnedCustomer) → rowA.c.recency ≠ (1/2 : ℚ))) :=
  ⟨chain'_of_checks _ (by decide) (by decide), by decide,
    c3_binning_rule [0, 1, 4] (chain'_of_checks _ (by decide) (by decide))
      (by decide) (1/2) 1 [] none [] rowA⟩

/-- A break list that is not strictly increasing and is not a duplicate
pair `[x, x]` fails `pd.cut` validation: either it has a strictly
decreasing step (monotonicity error) or it is non-decreasing with a
repeated edge, hence of length at least 3, so the `len(bins) != 2` guard
does not save it from the uniqueness error. -/
theorem cutValidate_eq_some_of_not_chain (edges : List (WithTop ℚ))
    (h : ¬ List.Chain' (· < ·) edges)
    (hpair : ∀ x : WithTop ℚ, edges ≠ [x, x]) :
    ∃ e, cutValidate edges = some e := by
  rcases hd : hasDecreasingStep edges with _ | _
  · rcases hdup : hasDuplicate edges with _ | _
    · exact absurd (chain'_of_checks edges hd hdup) h
    · refine ⟨CutError.duplicateEdges, ?_⟩
      have hlen : edges.length ≠ 2 := by
        intro h2
        match edges, h2 with
        | [a, b], _ =>
          have hab : ¬ b < a := by
            intro hba
            rw [hasDecreasingStep, if_pos hba] at hd
            cases hd
          have hab' : a = b := by
            by_cases hmem : a = b
            · exact hmem
            · simp [hasDuplicate, hmem] at hdup
          exact hpair b (by rw [hab'])
      rw [cutValidate, if_neg (by simp [hd]), if_pos ⟨hdup, hlen⟩]
  · exact ⟨CutError.nonMonotonic, by rw [cutValidate, if_pos hd]⟩

/-- C5 counterexample: the segmenter accepts configurations the claim says
it must reject.  With empty bin-edge lists (fewer than 2 edges) it silently
substitutes the defaults and produces a segmented table, and with the
non-increasing duplicate pair `[1, 1]` (pandas exempts length-2 break lists
from the uniqueness error) it succeeds with an empty segmented table. -/
theorem c5_counterexample_empty_edges_accepted :
    bin_customers [⟨0, 0, 1⟩] (some []) (some []) =
      Except.ok [⟨⟨0, 0, 1⟩, 1, 1⟩] ∧
    bin_customers [⟨0, 0, 1⟩] (some [(1 : WithTop ℚ), 1]) none =
      Except.ok [] := by
  constructor <;> decide

/-- C5 (amended): a bin-edge sequence (necessarily of length at least 2)
that is not strictly increasing and is not a duplicate pair `[x, x]` makes
`pd.cut` raise a `ValueError` that propagates to the caller, whether it is
passed as the recency or (with valid recency bins) the frequency edges; but
the remaining configurations the claim covers are not rejected: an empty
sequence is replaced by the defaults, a one-edge sequence yields an empty
segmented table, and a duplicate pair `[x, x]` — non-increasing, but exempt
from pandas' uniqueness error by its `len(bins) != 2` guard — also yields
an empty segmented table without error. -/
theorem c5_amended_rejects_nonincreasing (edges : List (WithTop ℚ))
    (h : ¬ List.Chain' (· < ·) edges)
    (hpair : ∀ x : WithTop ℚ, edges ≠ [x, x]) (df df2 df3 df4 : List Customer)
    (fb rb : Option (List (WithTop ℚ)))
    (hrb : cutValidate (resolveBins rb DEFAULT_RECENCY_BINS) = none)
    (e0 x0 : WithTop ℚ) :
    (∃ e, bin_customers df (some edges) fb = Except.error e) ∧
    (∃ e, bin_customers df2 rb (some edges) = Except.error e) ∧
    bin_customers df3 (some [e0]) none = Except.ok [] ∧
    bin_customers df4 (some [x0, x0]) none = Except.ok [] := by
  have hne : edges ≠ [] := by
    rintro rfl
    exact h trivial
  obtain ⟨err, herr⟩ := cutValidate_eq_some_of_not_chain edges h hpair
  have hf : cutValidate (resolveBins none DEFAULT_FREQUENCY_BINS) = none := by
    decide
  refine ⟨⟨err, ?_⟩, ⟨err, ?_⟩, ?_, ?_⟩
  · simp only [bin_customers, resolveBins_some_of_ne_nil hne, herr]
  · simp only [bin_customers, resolveBins_some_of_ne_nil hne, herr, hrb]
  · have hr1 : cutValidate [e0] = none := by
      simp [cutValidate, hasDecreasingStep, hasDuplicate]
    simp only [bin_customers, resolveBins_some_of_ne_nil
      (by simp : ([e0] : List (WithTop ℚ)) ≠ []), hr1, hf]
    simp only [Except.ok.injEq]
    rw [List.filterMap_eq_nil_iff]
    intro c _
    rfl
  · have hds : hasDecreasingStep [x0, x0] = false := by
      simp [hasDecreasingStep]
    have hr2 : cutValidate [x0, x0] = none := by
      rw [cutValidate, if_neg (by simp [hds]), if_neg (by simp)]
    simp only [bin_customers, resolveBins_some_of_ne_nil
      (by simp : ([x0, x0] : List (WithTop ℚ)) ≠ []), hr2, hf]
    simp only [Except.ok.injEq]
    rw [List.filterMap_eq_nil_iff]
    intro c _
    have hnone : findBucket c.recency [x0, x0] = none := by
      rw [findBucket, findBucketAux, if_neg]
      · rfl
      · rintro ⟨h1, h2⟩
        exact absurd (lt_of_le_of_lt h1 h2) (lt_irrefl _)
    rw [binRow, hnone]

/-- Witness for C5 (amended) at the decreasing break list `[2, 1]`. -/
theorem c5_amended_rejects_nonincreasing_witness :
    (¬ List.Chain' (· < ·) ([2, 1] : List (WithTop ℚ))) ∧
    (∀ x : WithTop ℚ, ([2, 1] : List (WithTop ℚ)) ≠ [x, x]) ∧
    cutValidate (resolveBins none DEFAULT_RECENCY_BINS) = none ∧
    ((∃ e, bin_customers [] (some ([2, 1] : List (WithTop ℚ))) none =
        Except.error e) ∧
      (∃ e, bin_customers [] none (some ([2, 1] : List (WithTop ℚ))) =
        Except.error e) ∧
      bin_customers [] (some [(5 : WithTop ℚ)]) none = Except.ok [] ∧
      bin_customers [] (some [(7 : WithTop ℚ), 7]) none = Except.ok []) := by
  have hnc : ¬ List.Chain' (· < ·) ([2, 1] : List (WithTop ℚ)) := by
    intro hc
    have ht : hasDecreasingStep ([2, 1] : List (WithTop ℚ)) = true := by decide
    rw [(checks_of_chain' _ hc).1] at ht
    cases ht
  have hpr : ∀ x : WithTop ℚ, ([2, 1] : List (WithTop ℚ)) ≠ [x, x] := by
    intro x hx
    rw [List.cons.injEq, List.cons.injEq] at hx
    obtain ⟨h1, h2, _⟩ := hx
    rw [← h1] at h2
    exact absurd h2 (by decide)
  exact ⟨hnc, hpr, by decide,
    c5_amended_rejects_nonincreasing [2, 1] hnc hpr [] [] [] [] none none
      (by decide) 5 7⟩

/-- C10: an empty bin-edge list (like `None`) is falsy, so `bin_customers`
silently substitutes the module defaults for it; and those defaults are
recency edges `[0,1,2,3,4,5,6,7,13,25,37]` and frequency edges
`[1,2,3,4,5,∞]`. -/
theorem c10_empty_bins_fall_back_to_defaults (df : List Customer) :
    bin_customers df (some []) (some []) = bin_customers df none none ∧
    bin_customers df (some []) none = bin_customers df none none ∧
    bin_customers df none (some []) = bin_customers df none none ∧
    DEFAULT_RECENCY_BINS = [0, 1, 2, 3, 4, 5, 6, 7, 13, 25, 37] ∧
    DEFAULT_FREQUENCY_BINS = [1, 2, 3, 4, 5, ⊤] :=
  ⟨rfl, rfl, rfl, rfl, rfl⟩

/-- C7, evaluated at the failing input: one order row whose `customer_email`
is null.  Cleaning stringifies the null to `"nan"` (so the row does
contribute to grouping and metric computation), but the post-aggregation
`dropna(subset=["customer_email"])` is then a no-op: the customer row
survives in the output summary with the literal email `"nan"`, contradicting
the documented intent of dropping null-email customers after aggregation. -/
theorem c7_null_email_customer_survives :
    aggregate_customer_data
        (clean_and_convert_data
          [⟨some "1", none, some "O1", some ⟨2024, 1, 15⟩, 10, 2, 8⟩])
        ⟨2024, 3, 1⟩ =
      [⟨"1", "nan", 1, some ⟨2024, 1, 15⟩, 10, 2, 8, some 2⟩] := by
  decide

/-- C8 counterexample: the pipeline stages are not pure.  `bin_customers`
mutates its input table in place (the caller's one-row table shrinks to the
empty binned table, because recency −5 fits no default bucket), and
`stratified_sample` begins with `np.random.seed(seed)`, overwriting the
process-wide generator state. -/
theorem c8_counterexample_stages_impure :
    bin_customers_post_input [⟨0, -5, 1⟩] none none = some [] ∧
    some ([] : List Customer) ≠ some [(⟨0, -5, 1⟩ : Customer)] ∧
    (stratified_sample_run shId ⟨0⟩ [] none 42).1 = (⟨42⟩ : World) ∧
    (⟨42⟩ : World) ≠ (⟨0⟩ : World) := by
  decide

/-- C8 (amended): each stage's returned value is a function of its arguments
alone — in particular a sampling run's output does not depend on the ambient
generator state, which the run overwrites with the given seed; but the
stages are not pure: `bin_customers` (and the cleaning step) mutate their
input table in place, and `stratified_sample` reseeds the process-wide numpy
generator. -/
theorem c8_amended_outputs_depend_only_on_arguments
    (sh : ℕ → (n : ℕ) → Equiv.Perm (Fin n)) (w1 w2 : World)
    (df : List BinnedCustomer) (sizes : Option SampleSizes) (seed : ℕ) :
    (stratified_sample_run sh w1 df sizes seed).2 =
        stratified_sample sh df sizes seed ∧
      (stratified_sample_run sh w1 df sizes seed).2 =
        (stratified_sample_run sh w2 df sizes seed).2 ∧
      (stratified_sample_run sh w1 df sizes seed).1 = (⟨seed⟩ : World) :=
  ⟨rfl, rfl, rfl⟩

/-! ### Order dependence of the sampler (C4) -/

/-- Evaluating one two-row single-segment call of the per-segment sampler
with an abstract positional permutation: the test slice is the single row
the permutation puts first. -/
theorem sampleSegment_test_two_rows (sh : ℕ → (n : ℕ) → Equiv.Perm (Fin n))
    (seed : ℕ) (x y : BinnedCustomer) :
    (sampleSegment sh seed sizesTC 1 [x, y]).test =
      [[x, y].get ((sh seed 2) 0)] := by
  have hd1 : desiredCount sizesTC.test 1 = 1 := by decide
  have hd2 : desiredCount sizesTC.control 1 = 1 := by decide
  have hd3 : desiredCount sizesTC.holdout 1 = 0 := by decide
  have hadj : adjustCounts 2 1 1 0 = (1, 1, 0) := by decide
  simp only [sampleSegment, hd1, hd2, hd3, List.length_cons, List.length_nil,
    Nat.zero_add, Nat.reduceAdd, hadj]
  rfl

/-- Evaluating a two-row single-segment sampling run with an abstract
positional permutation. -/
theorem stratified_sample_test_two_rows (sh : ℕ → (n : ℕ) → Equiv.Perm (Fin n))
    (x y : BinnedCustomer) (hx : segKey x = (1, 1)) (hy : segKey y = (1, 1)) :
    (stratified_sample sh [x, y] (some sizesTC) 42).test =
      [[x, y].get ((sh 42 2) 0)] := by
  have hmap : [x, y].map segKey = [(1, 1), (1, 1)] := by
    rw [List.map_cons, List.map_cons, List.map_nil, hx, hy]
  have hdf : distinctFirst ([(1, 1), (1, 1)] : List (ℕ × ℕ)) = [(1, 1)] := by
    decide
  have hfil : [x, y].filter (fun r => segKey r = (1, 1)) = [x, y] := by
    simp [List.filter_cons, hx, hy]
  have hkeys : segKeys [x, y] = [(1, 1)] := by
    rw [segKeys, hmap, hdf]
    rfl
  simp only [stratified_sample, hkeys, Option.getD_some, List.map_cons,
    List.map_nil, hfil, List.flatten]
  norm_num
  rw [sampleSegment_test_two_rows sh 42 x y]
  simp [List.get_eq_getElem]

/-- C4 counterexample: same seed, same rows as a set (indeed the same
multiset), different presentation order — the group assignment changes:
with the identity shuffle family, `rowA` is assigned to Test when the input
is `[rowA, rowB]` but not when the input is `[rowB, rowA]`. -/
theorem c4_counterexample_order_changes_assignment :
    List.Perm [rowA, rowB] [rowB, rowA] ∧
    rowA ∈ (stratified_sample shId [rowA, rowB] (some sizesTC) 42).test ∧
    rowA ∉ (stratified_sample shId [rowB, rowA] (some sizesTC) 42).test := by
  refine ⟨List.Perm.swap _ _ _, ?_, ?_⟩ <;> decide

/-- C4 (amended): a sampling run is deterministic in the seed and the input
row sequence — its output does not depend on the ambient generator state —
but set-equality of the inputs is not enough: for every positional shuffle
family, presenting a two-row segment in the opposite order flips which
customer lands in the Test group. -/
theorem c4_amended_deterministic_in_ordered_input
    (sh : ℕ → (n : ℕ) → Equiv.Perm (Fin n)) (w1 w2 : World)
    (df : List BinnedCustomer) (sizes : Option SampleSizes) (seed : ℕ) :
    (stratified_sample_run sh w1 df sizes seed).2 =
        (stratified_sample_run sh w2 df sizes seed).2 ∧
      (rowA ∈ (stratified_sample sh [rowA, rowB] (some sizesTC) 42).test ↔
        rowA ∉ (stratified_sample sh [rowB, rowA] (some sizesTC) 42).test) := by
  refine ⟨rfl, ?_⟩
  rw [stratified_sample_test_two_rows sh rowA rowB rfl rfl,
    stratified_sample_test_two_rows sh rowB rowA rfl rfl]
  rcases h0 : (sh 42 2) 0 with ⟨iv, hv⟩
  interval_cases iv
  · show rowA ∈ [[rowA, rowB].get (0 : Fin 2)] ↔
      rowA ∉ [[rowB, rowA].get (0 : Fin 2)]
    decide
  · show rowA ∈ [[rowA, rowB].get (1 : Fin 2)] ↔
      rowA ∉ [[rowB, rowA].get (1 : Fin 2)]
    decide

/-! ### The segment keys partition the population (towards C6 and C9) -/

/-- Membership in the first-occurrence distinct fold. -/
theorem mem_foldl_distinct {α : Type} [DecidableEq α] (l : List α) :
    ∀ (acc : List α) (y : α),
      (y ∈ l.foldl (fun acc x => if x ∈ acc then acc else acc.concat x) acc ↔
        y ∈ acc ∨ y ∈ l) := by
  induction l with
  | nil => simp
  | cons a tl ih =>
      intro acc y
      rw [List.foldl_cons]
      by_cases h : a ∈ acc
      · rw [if_pos h, ih]
        simp only [List.mem_cons]
        constructor
        · rintro (hy | hy)
          · exact Or.inl hy
          · exact Or.inr (Or.inr hy)
        · rintro (hy | rfl | hy)
          · exact Or.inl hy
          · exact Or.inl h
          · exact Or.inr hy
      · rw [if_neg h, ih]
        simp only [List.concat_eq_append, List.mem_append, List.mem_singleton,
          List.mem_cons]
        tauto

/-- The first-occurrence distinct fold preserves `Nodup`. -/
theorem nodup_foldl_distinct {α : Type} [DecidableEq α] (l : List α) :
    ∀ (acc : List α), acc.Nodup →
      (l.foldl (fun acc x => if x ∈ acc then acc else acc.concat x) acc).Nodup := by
  induction l with
  | nil => intro acc h; simpa using h
  | cons a tl ih =>
      intro acc hacc
      rw [List.foldl_cons]
      by_cases h : a ∈ acc
      · rw [if_pos h]; exact ih acc hacc
      · rw [if_neg h]
        refine ih _ ?_
        simp only [List.concat_eq_append]
        refine List.Nodup.append hacc (List.nodup_singleton a) ?_
        intro x hx hxa
        rw [List.mem_singleton] at hxa
        subst hxa
        exact h hx

/-- `distinctFirst` keeps exactly the members of the list. -/
theorem mem_distinctFirst {α : Type} [DecidableEq α] {l : List α} {y : α} :
    y ∈ distinctFirst l ↔ y ∈ l := by
  rw [distinctFirst, mem_foldl_distinct]
  simp

/-- `distinctFirst` has no duplicates. -/
theorem nodup_distinctFirst {α : Type} [DecidableEq α] (l : List α) :
    (distinctFirst l).Nodup :=
  nodup_foldl_distinct l [] List.nodup_nil

/-- Pointwise sums of mapped lists split. -/
theorem list_sum_map_add {κ : Type} (K : List κ) (f g : κ → ℕ) :
    (K.map (fun k => f k + g k)).sum = (K.map f).sum + (K.map g).sum := by
  induction K with
  | nil => rfl
  | cons k tl ih => simp [List.map_cons, List.sum_cons, ih]; omega

/-- Summing the indicator of `c` over a list avoiding `c` gives zero. -/
theorem list_sum_ite_eq_zero {κ : Type} [DecidableEq κ] (c : κ) :
    ∀ (K : List κ), c ∉ K →
      (K.map (fun k => if c = k then (1 : ℕ) else 0)).sum = 0 := by
  intro K
  induction K with
  | nil => intro _; rfl
  | cons k tl ih =>
      intro hc
      rw [List.map_cons, List.sum_cons,
        if_neg (fun h => hc (by rw [h]; exact List.mem_cons_self k tl)),
        ih (fun h => hc (List.mem_cons_of_mem k h))]

/-- Summing the indicator of `c` over a duplicate-free list containing `c`
gives one. -/
theorem list_sum_ite_eq_one {κ : Type} [DecidableEq κ] (c : κ) :
    ∀ (K : List κ), K.Nodup → c ∈ K →
      (K.map (fun k => if c = k then (1 : ℕ) else 0)).sum = 1 := by
  intro K
  induction K with
  | nil => intro _ hc; cases hc
  | cons k tl ih =>
      intro hK hc
      rw [List.map_cons, List.sum_cons]
      by_cases hck : c = k
      · rw [if_pos hck, list_sum_ite_eq_zero c tl
          (fun hmem => (List.nodup_cons.1 hK).1 (hck ▸ hmem))]
      · rw [if_neg hck, ih (List.nodup_cons.1 hK).2
          ((List.mem_cons.1 hc).resolve_left hck)]

/-- Filtering a list by each key of a duplicate-free list covering all its
keys partitions the list: the filtered lengths sum to the full length. -/
theorem sum_filter_lengths {α κ : Type} [DecidableEq κ] (key : α → κ) :
    ∀ (l : List α) (K : List κ), K.Nodup → (∀ x ∈ l, key x ∈ K) →
      (K.map (fun k => (l.filter (fun x => key x = k)).length)).sum =
        l.length := by
  intro l
  induction l with
  | nil =>
      intro K _ _
      simp
  | cons a tl ih =>
      intro K hK hcov
      have hpt : ∀ k ∈ K, ((a :: tl).filter (fun x => key x = k)).length =
          (tl.filter (fun x => key x = k)).length +
            (if key a = k then 1 else 0) := by
        intro k _
        rw [List.filter_cons]
        by_cases h : key a = k
        · simp [h]
        · simp [h]
      rw [List.map_congr_left hpt, list_sum_map_add,
        ih K hK (fun x hx => hcov x (List.mem_cons_of_mem a hx)),
        list_sum_ite_eq_one (key a) K hK (hcov a (List.mem_cons_self a tl))]
      rfl

/-- Stable descending insertion permutes the element in. -/
theorem insertCountDesc_perm {α : Type} (cnt : α → ℕ) (k : α) :
    ∀ (l : List α), List.Perm (insertCountDesc cnt k l) (k :: l) := by
  intro l
  induction l with
  | nil => exact List.Perm.refl _
  | cons x xs ih =>
      rw [insertCountDesc]
      by_cases h : cnt x < cnt k
      · rw [if_pos h]
      · rw [if_neg h]
        exact (ih.cons x).trans (List.Perm.swap k x xs)

/-- The descending count sort is a permutation. -/
theorem sortCountDesc_perm {α : Type} (cnt : α → ℕ) :
    ∀ (l : List α), List.Perm (sortCountDesc cnt l) l := by
  intro l
  induction l with
  | nil => exact List.Perm.refl _
  | cons x xs ih =>
      rw [sortCountDesc]
      exact (insertCountDesc_perm cnt x (sortCountDesc cnt xs)).trans (ih.cons x)

/-- The iteration order of the sampler is a permutation of the distinct
segment keys in first-occurrence order. -/
theorem segKeys_perm (df : List BinnedCustomer) :
    List.Perm (segKeys df) (distinctFirst (df.map segKey)) :=
  sortCountDesc_perm _ _

/-- The iterated segment keys are duplicate-free. -/
theorem segKeys_nodup (df : List BinnedCustomer) : (segKeys df).Nodup :=
  ((segKeys_perm df).nodup_iff).2 (nodup_distinctFirst _)

/-- A key is iterated exactly when some row carries it. -/
theorem mem_segKeys {df : List BinnedCustomer} {k : ℕ × ℕ} :
    k ∈ segKeys df ↔ ∃ b ∈ df, segKey b = k := by
  rw [(segKeys_perm df).mem_iff, mem_distinctFirst, List.mem_map]

/-- The per-key row counts over the iterated segment keys sum to the
population size: the segments partition the segmented table. -/
theorem segKeys_partition (df : List BinnedCustomer) :
    ((segKeys df).map
      (fun k => (df.filter (fun r => segKey r = k)).length)).sum = df.length := by
  rw [((segKeys_perm df).map
    (fun k => (df.filter (fun r => segKey r = k)).length)).sum_eq]
  exact sum_filter_lengths segKey df _ (nodup_distinctFirst _)
    (fun x hx => mem_distinctFirst.2 (List.mem_map_of_mem segKey hx))

/-- A nonempty population yields at least one segment key. -/
theorem segKeys_ne_nil {df : List BinnedCustomer} (h : df ≠ []) :
    segKeys df ≠ [] := by
  obtain ⟨b, hb⟩ := List.exists_mem_of_ne_nil df h
  intro hnil
  have : segKey b ∈ segKeys df := mem_segKeys.2 ⟨b, hb, rfl⟩
  rw [hnil] at this
  cases this

/-! ### Proportionality of the pre-shortfall desired counts (C6) -/

/-- Rounding fixes the natural numbers. -/
theorem roundHalfEven_natCast (n : ℕ) : roundHalfEven (n : ℚ) = n := by
  rw [show ((n : ℚ)) = ((n : ℤ) : ℚ) by push_cast; ring, roundHalfEven_intCast]

/-- A constant factor pulls out of a mapped rational sum. -/
theorem list_sum_map_mul_left {κ : Type} (K : List κ) (a : ℚ) (f : κ → ℚ) :
    (K.map (fun k => a * f k)).sum = a * (K.map f).sum := by
  induction K with
  | nil => simp
  | cons k tl ih => simp [List.map_cons, List.sum_cons, ih]; ring

/-- Pointwise differences of mapped rational sums split. -/
theorem list_sum_map_sub {κ : Type} (K : List κ) (f g : κ → ℚ) :
    (K.map (fun k => f k - g k)).sum = (K.map f).sum - (K.map g).sum := by
  induction K with
  | nil => simp
  | cons k tl ih => simp [List.map_cons, List.sum_cons, ih]; ring

/-- A list of rationals individually bounded in absolute value has its sum
bounded by the length times the bound. -/
theorem list_abs_sum_le (L : List ℚ) (c : ℚ) (h : ∀ y ∈ L, |y| ≤ c) :
    |L.sum| ≤ (L.length : ℚ) * c := by
  induction L with
  | nil => simp
  | cons a tl ih =>
      have ha : |a| ≤ c := h a (List.mem_cons_self a tl)
      have htl : |tl.sum| ≤ (tl.length : ℚ) * c :=
        ih (fun y hy => h y (List.mem_cons_of_mem a hy))
      calc |(a :: tl).sum| = |a + tl.sum| := by rw [List.sum_cons]
        _ ≤ |a| + |tl.sum| := abs_add _ _
        _ ≤ c + (tl.length : ℚ) * c := add_le_add ha htl
        _ = ((a :: tl).length : ℚ) * c := by
            rw [List.length_cons]
            push_cast
            ring

/-- The per-segment desired fractions of one group sum to its full target:
`Σ_k T·(count k / total) = T`. -/
theorem desired_fractions_sum (df : List BinnedCustomer) (T : ℕ)
    (hne : df ≠ []) :
    ((segKeys df).map (fun k =>
      (T : ℚ) * (((df.filter (fun r => segKey r = k)).length : ℚ) /
        (df.length : ℚ)))).sum = (T : ℚ) := by
  have hN : 0 < df.length := List.length_pos.2 hne
  have hNQ : ((df.length : ℚ)) ≠ 0 := by positivity
  have step1 : ∀ k ∈ segKeys df,
      (T : ℚ) * (((df.filter (fun r => segKey r = k)).length : ℚ) /
        (df.length : ℚ)) =
      ((T : ℚ) / (df.length : ℚ)) *
        (((df.filter (fun r => segKey r = k)).length : ℚ)) := by
    intro k _
    ring
  rw [List.map_congr_left step1, list_sum_map_mul_left]
  have hcast : ((segKeys df).map (fun k =>
      (((df.filter (fun r => segKey r = k)).length : ℕ) : ℚ))).sum =
      ((df.length : ℕ) : ℚ) := by
    rw [show ((segKeys df).map (fun k =>
        (((df.filter (fun r => segKey r = k)).length : ℕ) : ℚ))) =
        (((segKeys df).map (fun k =>
          (df.filter (fun r => segKey r = k)).length)).map
            (fun m => ((m : ℕ) : ℚ))) from (List.map_map _ _ _).symm,
      ← Nat.cast_list_sum, segKeys_partition df]
  rw [hcast, div_mul_cancel₀ _ hNQ]

/-- C6 (amended): over a nonempty segmented population, the per-group
pre-shortfall desired counts summed over all segments differ from the
rounded target by at most (number of segments − 1). -/
theorem c6_amended_proportionality (df : List BinnedCustomer) (T : ℕ)
    (hne : df ≠ []) :
    |((segKeys df).map (fun k =>
        desiredCount T (((df.filter (fun r => segKey r = k)).length : ℚ) /
          (df.length : ℚ)))).sum - roundHalfEven ((T : ℕ) : ℚ)| ≤
      ((segKeys df).length : ℤ) - 1 := by
  have hN : 0 < df.length := List.length_pos.2 hne
  have hNQ : ((df.length : ℚ)) ≠ 0 := by positivity
  have hT : roundHalfEven ((T : ℕ) : ℚ) = (T : ℤ) := roundHalfEven_natCast T
  have hn1 : 1 ≤ (segKeys df).length :=
    List.length_pos.2 (segKeys_ne_nil hne)
  rcases eq_or_lt_of_le hn1 with hone | hn2
  · -- a single segment: its share is 1 and the desired count is exactly T
    obtain ⟨k0, hk0⟩ := List.length_eq_one.1 hone.symm
    have hcnt : (df.filter (fun r => segKey r = k0)).length = df.length := by
      have hp := segKeys_partition df
      rw [hk0] at hp
      simpa using hp
    rw [hT, hk0]
    simp only [List.map_cons, List.map_nil, List.sum_cons, List.sum_nil,
      add_zero, List.length_cons, List.length_nil]
    rw [hcnt, div_self hNQ, desiredCount, mul_one, roundHalfEven_natCast]
    simp
  · -- at least two segments: each rounding moves a term by at most 1/2
    set cnt := fun k => (df.filter (fun r => segKey r = k)).length with hcnt
    set n := (segKeys df).length with hn
    have hterm : ∀ k ∈ segKeys df,
        |((desiredCount T ((cnt k : ℚ) / (df.length : ℚ)) : ℤ) : ℚ) -
          (T : ℚ) * ((cnt k : ℚ) / (df.length : ℚ))| ≤ 1/2 := by
      intro k _
      exact abs_roundHalfEven_sub_le _
    have hEsum : ((segKeys df).map (fun k =>
        ((desiredCount T ((cnt k : ℚ) / (df.length : ℚ)) : ℤ) : ℚ) -
          (T : ℚ) * ((cnt k : ℚ) / (df.length : ℚ)))).sum =
        ((((segKeys df).map (fun k =>
          desiredCount T ((cnt k : ℚ) / (df.length : ℚ)))).sum : ℤ) : ℚ) -
          (T : ℚ) := by
      rw [list_sum_map_sub, desired_fractions_sum df T hne]
      congr 1
      rw [show ((segKeys df).map (fun k =>
          ((desiredCount T ((cnt k : ℚ) / (df.length : ℚ)) : ℤ) : ℚ))) =
          (((segKeys df).map (fun k =>
            desiredCount T ((cnt k : ℚ) / (df.length : ℚ)))).map
              (fun z => ((z : ℤ) : ℚ))) from (List.map_map _ _ _).symm,
        ← Int.cast_list_sum]
    have hlenE : ((segKeys df).map (fun k =>
        ((desiredCount T ((cnt k : ℚ) / (df.length : ℚ)) : ℤ) : ℚ) -
          (T : ℚ) * ((cnt k : ℚ) / (df.length : ℚ)))).length = n := by
      rw [List.length_map]
    have hbound := list_abs_sum_le _ (1/2) (by
      intro y hy
      obtain ⟨k, hk, rfl⟩ := List.mem_map.1 hy
      exact hterm k hk)
    rw [hEsum, hlenE] at hbound
    have hhalf : (n : ℚ) * (1/2) ≤ (n : ℚ) - 1 := by
      have : (2 : ℚ) ≤ (n : ℚ) := by exact_mod_cast hn2
      linarith
    have hQ : |((((segKeys df).map (fun k =>
        desiredCount T ((cnt k : ℚ) / (df.length : ℚ)))).sum : ℤ) : ℚ) -
          (T : ℚ)| ≤ (n : ℚ) - 1 := le_trans hbound hhalf
    rw [hT]
    have hcast : ((((segKeys df).map (fun k =>
        desiredCount T ((cnt k : ℚ) / (df.length : ℚ)))).sum - (T : ℤ) : ℤ) : ℚ) =
        ((((segKeys df).map (fun k =>
          desiredCount T ((cnt k : ℚ) / (df.length : ℚ)))).sum : ℤ) : ℚ) -
          (T : ℚ) := by
      push_cast
      ring
    have : |(((segKeys df).map (fun k =>
        desiredCount T ((cnt k : ℚ) / (df.length : ℚ)))).sum - (T : ℤ) : ℤ)| ≤
        (n : ℤ) - 1 := by
      have h1 : ((|(((segKeys df).map (fun k =>
          desiredCount T ((cnt k : ℚ) / (df.length : ℚ)))).sum - (T : ℤ) : ℤ)| : ℤ) : ℚ) ≤
          (((n : ℤ) - 1 : ℤ) : ℚ) := by
        rw [Int.cast_abs, hcast, Int.cast_sub, Int.cast_one, Int.cast_natCast]
        exact hQ
      exact_mod_cast h1
    exact this

/-- C6 counterexample: an empty population has zero segments, an empty
desired-count sum, and a bound of −1, which the sum misses for target 1. -/
theorem c6_counterexample_empty_population :
    ¬ (|((segKeys ([] : List BinnedCustomer)).map (fun k =>
          desiredCount 1
            (((([] : List BinnedCustomer).filter
                (fun r => segKey r = k)).length : ℚ) /
              (([] : List BinnedCustomer).length : ℚ)))).sum -
          roundHalfEven ((1 : ℕ) : ℚ)| ≤
        ((segKeys ([] : List BinnedCustomer)).length : ℤ) - 1) := by
  decide

/-- Witness for C6 (amended) at a one-row population with target 3: one
segment, desired count exactly 3, error 0 within bound 0. -/
theorem c6_amended_proportionality_witness :
    ([rowA] : List BinnedCustomer) ≠ [] ∧
    |((segKeys [rowA]).map (fun k =>
        desiredCount 3 ((([rowA].filter (fun r => segKey r = k)).length : ℚ) /
          (([rowA] : List BinnedCustomer).length : ℚ)))).sum -
        roundHalfEven ((3 : ℕ) : ℚ)| ≤
      ((segKeys [rowA]).length : ℤ) - 1 :=
  ⟨by decide, c6_amended_proportionality [rowA] 3 (by decide)⟩

/-! ### Pairwise disjointness of the three groups (C9) -/

/-- A positional shuffle is a permutation of the rows. -/
theorem applyPerm_perm {α : Type} (xs : List α)
    (p : Equiv.Perm (Fin xs.length)) : List.Perm (applyPerm xs p) xs := by
  have h := Equiv.Perm.ofFn_comp_perm p xs.get
  rw [List.ofFn_get] at h
  exact h

/-- The clamped resolution of an iloc slice endpoint. -/
def resolveIdx (n : ℕ) (a : ℤ) : ℕ :=
  (if a < 0 then max ((n : ℤ) + a) 0 else min a (n : ℤ)).toNat

/-- An iloc slice is a drop-then-take at the resolved endpoints. -/
theorem ilocSlice_eq {α : Type} (xs : List α) (a b : ℤ) :
    ilocSlice xs a b =
      (xs.drop (resolveIdx xs.length a)).take
        (resolveIdx xs.length b - resolveIdx xs.length a) := by
  simp only [ilocSlice, resolveIdx]
  split_ifs <;> (congr 1; omega)

/-- Endpoint resolution is monotone on nonnegative endpoints. -/
theorem resolveIdx_mono (n : ℕ) {a b : ℤ} (ha : 0 ≤ a) (hab : a ≤ b) :
    resolveIdx n a ≤ resolveIdx n b := by
  simp only [resolveIdx]
  split_ifs <;> omega

/-- An iloc slice sits inside the drop at its resolved left endpoint. -/
theorem ilocSlice_subset_drop {α : Type} (xs : List α) (a b : ℤ) :
    ilocSlice xs a b ⊆ xs.drop (resolveIdx xs.length a) := by
  rw [ilocSlice_eq]
  exact List.take_subset _ _

/-- An iloc slice sits inside the take at its resolved right endpoint. -/
theorem ilocSlice_subset_take {α : Type} (xs : List α) (a b : ℤ) :
    ilocSlice xs a b ⊆ xs.take (resolveIdx xs.length b) := by
  rw [ilocSlice_eq]
  rcases le_or_lt (resolveIdx xs.length a) (resolveIdx xs.length b) with
    hab | hba
  · intro x hx
    rw [← List.drop_take] at hx
    exact List.drop_subset _ _ hx
  · have h0 : resolveIdx xs.length b - resolveIdx xs.length a = 0 := by omega
    rw [h0, List.take_zero]
    exact List.nil_subset _

/-- An iloc slice sits inside the list. -/
theorem ilocSlice_subset {α : Type} (xs : List α) (a b : ℤ) :
    ilocSlice xs a b ⊆ xs :=
  fun _ hx => List.drop_subset _ _ (ilocSlice_subset_drop xs a b hx)

/-- Two iloc slices of a duplicate-free list are disjoint when the first
slice ends (resolved) before the second one starts. -/
theorem ilocSlice_disjoint {α : Type} {xs : List α} (h : xs.Nodup)
    (a b a' b' : ℤ)
    (hle : resolveIdx xs.length b ≤ resolveIdx xs.length a') :
    List.Disjoint (ilocSlice xs a b) (ilocSlice xs a' b') :=
  fun _ hx1 hx2 =>
    List.disjoint_take_drop h hle (ilocSlice_subset_take xs a b hx1)
      (ilocSlice_subset_drop xs a' b' hx2)

/-- Every group a segment call produces consists of segment rows. -/
theorem sampleSegment_subsets (sh : ℕ → (n : ℕ) → Equiv.Perm (Fin n))
    (seed : ℕ) (sizes : SampleSizes) (p : ℚ) (rows : List BinnedCustomer) :
    (sampleSegment sh seed sizes p rows).test ⊆ rows ∧
      (sampleSegment sh seed sizes p rows).control ⊆ rows ∧
      (sampleSegment sh seed sizes p rows).holdout ⊆ rows := by
  have hmem : ∀ x ∈ applyPerm rows (sh seed rows.length), x ∈ rows :=
    fun x hx => (applyPerm_perm rows (sh seed rows.length)).mem_iff.1 hx
  simp only [sampleSegment]
  exact ⟨fun x hx => hmem x (ilocSlice_subset _ _ _ hx),
    fun x hx => hmem x (ilocSlice_subset _ _ _ hx),
    fun x hx => hmem x (ilocSlice_subset _ _ _ hx)⟩

/-- On a duplicate-free segment, the three group slices are pairwise
disjoint. -/
theorem sampleSegment_disjoint (sh : ℕ → (n : ℕ) → Equiv.Perm (Fin n))
    (seed : ℕ) (sizes : SampleSizes) {p : ℚ} (hp : 0 ≤ p)
    {rows : List BinnedCustomer} (h : rows.Nodup) :
    List.Disjoint (sampleSegment sh seed sizes p rows).test
        (sampleSegment sh seed sizes p rows).control ∧
      List.Disjoint (sampleSegment sh seed sizes p rows).test
        (sampleSegment sh seed sizes p rows).holdout ∧
      List.Disjoint (sampleSegment sh seed sizes p rows).control
        (sampleSegment sh seed sizes p rows).holdout := by
  obtain ⟨hT, hC, _⟩ := adjustCounts_spec rows.length
    (desiredCount sizes.test p) (desiredCount sizes.control p)
    (desiredCount sizes.holdout p)
    (desiredCount_nonneg _ hp) (desiredCount_nonneg _ hp)
    (desiredCount_nonneg _ hp)
  have hsn : (applyPerm rows (sh seed rows.length)).Nodup :=
    (applyPerm_perm rows (sh seed rows.length)).nodup_iff.2 h
  simp only [sampleSegment]
  set t := adjustCounts rows.length (desiredCount sizes.test p)
    (desiredCount sizes.control p) (desiredCount sizes.holdout p) with ht
  set s := applyPerm rows (sh seed rows.length) with hs
  refine ⟨ilocSlice_disjoint hsn 0 t.1 t.1 (t.1 + t.2.1) le_rfl,
    ilocSlice_disjoint hsn 0 t.1 (t.1 + t.2.1) (t.1 + t.2.1 + t.2.2) ?_,
    ilocSlice_disjoint hsn t.1 (t.1 + t.2.1) (t.1 + t.2.1)
      (t.1 + t.2.1 + t.2.2) le_rfl⟩
  exact resolveIdx_mono _ hT (by omega)

/-- Concatenations of per-segment slices are disjoint when each segment's
slices are: a common member would force both occurrences into the segment of
its own key, where the slices are disjoint. -/
theorem flatten_disjoint_of_segmentwise (df : List BinnedCustomer)
    (F G : ℕ × ℕ → List BinnedCustomer)
    (hFsub : ∀ k, F k ⊆ df.filter (fun r => segKey r = k))
    (hGsub : ∀ k, G k ⊆ df.filter (fun r => segKey r = k))
    (hdisj : ∀ k, List.Disjoint (F k) (G k)) :
    List.Disjoint ((segKeys df).map F).flatten
      ((segKeys df).map G).flatten := by
  intro x hxF hxG
  obtain ⟨lF, hlF, hxlF⟩ := List.mem_flatten.1 hxF
  obtain ⟨k1, _, rfl⟩ := List.mem_map.1 hlF
  obtain ⟨lG, hlG, hxlG⟩ := List.mem_flatten.1 hxG
  obtain ⟨k2, _, rfl⟩ := List.mem_map.1 hlG
  have h1 : segKey x = k1 :=
    of_decide_eq_true (List.mem_filter.1 (hFsub k1 hxlF)).2
  have h2 : segKey x = k2 :=
    of_decide_eq_true (List.mem_filter.1 (hGsub k2 hxlG)).2
  rw [← h1, h2] at hxlF
  exact hdisj k2 hxlF hxlG

/-- C9: for every segmented input, group-target map and seed, the Test,
Control and Holdout outputs of a run on duplicate-free rows are pairwise
disjoint — no input row is assigned to more than one group. -/
theorem c9_groups_pairwise_disjoint (sh : ℕ → (n : ℕ) → Equiv.Perm (Fin n))
    (df : List BinnedCustomer) (sizes : Option SampleSizes) (seed : ℕ)
    (h : df.Nodup) :
    List.Disjoint (stratified_sample sh df sizes seed).test
        (stratified_sample sh df sizes seed).control ∧
      List.Disjoint (stratified_sample sh df sizes seed).test
        (stratified_sample sh df sizes seed).holdout ∧
      List.Disjoint (stratified_sample sh df sizes seed).control
        (stratified_sample sh df sizes seed).holdout := by
  have hple : ∀ k : ℕ × ℕ, (0 : ℚ) ≤
      ((df.filter (fun r => segKey r = k)).length : ℚ) / (df.length : ℚ) := by
    intro k
    positivity
  have hnod : ∀ k : ℕ × ℕ, (df.filter (fun r => segKey r = k)).Nodup :=
    fun k => h.filter _
  simp only [stratified_sample]
  rw [List.map_map, List.map_map, List.map_map]
  refine ⟨flatten_disjoint_of_segmentwise df _ _ ?_ ?_ ?_,
    flatten_disjoint_of_segmentwise df _ _ ?_ ?_ ?_,
    flatten_disjoint_of_segmentwise df _ _ ?_ ?_ ?_⟩ <;>
    intro k
  · exact (sampleSegment_subsets _ _ _ _ _).1
  · exact (sampleSegment_subsets _ _ _ _ _).2.1
  · exact (sampleSegment_disjoint _ _ _ (hple k) (hnod k)).1
  · exact (sampleSegment_subsets _ _ _ _ _).1
  · exact (sampleSegment_subsets _ _ _ _ _).2.2
  · exact (sampleSegment_disjoint _ _ _ (hple k) (hnod k)).2.1
  · exact (sampleSegment_subsets _ _ _ _ _).2.1
  · exact (sampleSegment_subsets _ _ _ _ _).2.2
  · exact (sampleSegment_disjoint _ _ _ (hple k) (hnod k)).2.2

/-- Witness for C9 at a concrete duplicate-free two-row run. -/
theorem c9_groups_pairwise_disjoint_witness :
    ([rowA, rowB] : List BinnedCustomer).Nodup ∧
    (List.Disjoint (stratified_sample shId [rowA, rowB] (some sizesTC) 42).test
        (stratified_sample shId [rowA, rowB] (some sizesTC) 42).control ∧
      List.Disjoint (stratified_sample shId [rowA, rowB] (some sizesTC) 42).test
        (stratified_sample shId [rowA, rowB] (some sizesTC) 42).holdout ∧
      List.Disjoint
        (stratified_sample shId [rowA, rowB] (some sizesTC) 42).control
        (stratified_sample shId [rowA, rowB] (some sizesTC) 42).holdout) :=
  ⟨by decide,
    c9_groups_pairwise_disjoint shId [rowA, rowB] (some sizesTC) 42 (by decide)⟩

end DirectMail
